import Mathlib

/-!
# Verification of the `econci` complexity-index engine

Shallow embedding of `econci/complexity.py` (class `Complexity`) and
`econci/utils.py` (guards `check_if_indexes` / `check_if_graph`).

Entities (the `c` axis, "countries") are modelled as `Fin nc`, items (the
`p` axis, "products") as `Fin np`.  Real-valued pandas/numpy arithmetic is
modelled over a `LinearOrderedField` so that the same definitions can be
instantiated at `ℚ` (for decidable concrete evaluation) and at `ℝ` (for the
eigenvector/standardization claims).  numpy's `sqrt` is passed as an explicit
function argument so the definitions stay computable; theorems about the
real pipeline instantiate it with `Real.sqrt`.
-/

namespace Econci

variable {K : Type} [LinearOrderedField K]

/-- `df.groupby([c, p])[values].sum().unstack().fillna(0)` (method `__get_m`):
the cell `(c, p)` of `M` is the sum of the `values` column over all
observation rows with that entity and item (0 when no row matches). -/
def buildM {nc np : ℕ} (obs : List (Fin nc × Fin np × K)) (c : Fin nc) (p : Fin np) : K :=
  ((obs.filter (fun r => r.1 = c ∧ r.2.1 = p)).map (fun r => r.2.2)).sum

/-- `m.sum(axis=1)` (per-entity row sum, `sum_c` in `__calc_rca`). -/
def sumRow {nc np : ℕ} (m : Fin nc → Fin np → K) (c : Fin nc) : K := ∑ p, m c p

/-- `m.sum(axis=0)` (per-item column sum, `sum_p` in `__calc_rca`). -/
def sumCol {nc np : ℕ} (m : Fin nc → Fin np → K) (p : Fin np) : K := ∑ c, m c p

/-- `sum_tt = sum_c.sum()` (grand total of the matrix). -/
def sumTot {nc np : ℕ} (m : Fin nc → Fin np → K) : K := ∑ c, sumRow m c

/-- `__calc_rca`: `rca[c,p] = (m[c,p]/sum_c[c]) / (sum_p[p]/sum_tt)`.
(The pandas `apply` runs columnwise: `x` is column `p`, `x.name = p`.) -/
def rca {nc np : ℕ} (m : Fin nc → Fin np → K) (c : Fin nc) (p : Fin np) : K :=
  (m c p / sumRow m c) / (sumCol m p / sumTot m)

/-- First masking assignment of `__get_m_cp`: `m_cp[m_cp >= thresh] = 1`
(cells `≥ τ` become 1, the rest keep their value). -/
def mask1 (τ x : K) : K := if τ ≤ x then 1 else x

/-- Second masking assignment of `__get_m_cp`: `m_cp[m_cp < thresh] = 0`,
applied to the result of the first mask.  Note that when `τ > 1` this
second mask also zeroes the cells the first mask just set to 1. -/
def mask2 (τ y : K) : K := if y < τ then 0 else y

/-- The two sequential masking assignments of `__get_m_cp` composed. -/
def mcpVal (τ x : K) : K := mask2 τ (mask1 τ x)

/-- Cellwise value of `M_cp`: the thresholded RCA matrix.  (The two
reindexing lines of `__get_m_cp` are modelled separately, on the labelled
frame, in `DFrame.getMcp` below; they do not change any cell.) -/
def mcpOf {nc np : ℕ} (r : Fin nc → Fin np → K) (τ : K) (c : Fin nc) (p : Fin np) : K :=
  mcpVal τ (r c p)

/-- `__get_diversity`: `m_cp.sum(axis=1)` — row sums of `M_cp`. -/
def diversity {nc np : ℕ} (mc : Fin nc → Fin np → K) (c : Fin nc) : K := ∑ p, mc c p

/-- `__get_ubiquity`: `m_cp.sum(axis=0)` — column sums of `M_cp`. -/
def ubiquity {nc np : ℕ} (mc : Fin nc → Fin np → K) (p : Fin np) : K := ∑ c, mc c p

/-- `__calc_eci` transition matrix
`m_tilda_cc = ((m_cp.dot((m_cp/kp0).T) / kc0).T`:
entry `(i,j)` is `(∑_p m_cp[j,p]·(m_cp[i,p]/kp0[p])) / kc0[i]`
(pandas aligns the Series divisors on columns; the final transpose puts the
`kc0` normalization on the row index). -/
def mTildaCC {nc np : ℕ} (mc : Fin nc → Fin np → K) (i j : Fin nc) : K :=
  (∑ p, mc j p * (mc i p / ubiquity mc p)) / diversity mc i

/-- `__calc_pci` transition matrix
`m_tilda_pp = ((m_cp.T).dot((m_cp.T/kc0).T) / kp0).T`:
entry `(p,q)` is `(∑_c m_cp[c,q]·(m_cp[c,p]/kc0[c])) / kp0[p]`. -/
def mTildaPP {nc np : ℕ} (mc : Fin nc → Fin np → K) (p q : Fin np) : K :=
  (∑ c, mc c q * (mc c p / diversity mc c)) / ubiquity mc p

/-- `phi = m_cp.T.dot(m_cp)` in `__calc_proximity`. -/
def phiRaw {nc np : ℕ} (mc : Fin nc → Fin np → K) (p q : Fin np) : K :=
  ∑ c, mc c p * mc c q

/-- `__calc_proximity`: each column `q` of `phi` is divided elementwise by
`np.maximum(kp0[q], kp0[p])`, then `np.fill_diagonal(phi_pp.values, 0)`
forces the diagonal to 0. -/
def proximity {nc np : ℕ} (mc : Fin nc → Fin np → K) (p q : Fin np) : K :=
  if p = q then 0 else phiRaw mc p q / max (ubiquity mc q) (ubiquity mc p)

/-- `__calc_density`: `m_cp.dot(proximity) / proximity.sum(axis=1)` —
the Series of proximity row sums is aligned on the item columns. -/
def densityOf {nc np : ℕ} (mc : Fin nc → Fin np → K) (c : Fin nc) (p : Fin np) : K :=
  (∑ q, mc c q * proximity mc q p) / (∑ q, proximity mc p q)

/-- `__calc_distance`: `1 - density`, elementwise. -/
def distanceOf {nc np : ℕ} (mc : Fin nc → Fin np → K) (c : Fin nc) (p : Fin np) : K :=
  1 - densityOf mc c p

/-! ## Statistics used by `__calc_eci` / `__calc_pci` / `__fix_sign`

`eci.std()` on a numpy array uses `ddof=0`, i.e. the *population* standard
deviation `sqrt(mean((x - x.mean())**2))`.  The square root is an explicit
argument `sq` so the definitions stay computable over any field. -/

/-- numpy `v.mean()`. -/
def meanV {n : ℕ} (v : Fin n → K) : K := (∑ i, v i) / n

/-- numpy `v.var()` with the default `ddof=0` (population variance). -/
def popVarV {n : ℕ} (v : Fin n → K) : K := (∑ i, (v i - meanV v) ^ 2) / n

/-- Sample variance (denominator `n - 1`), what the spec calls the square of
the "sample standard deviation".  Not what the code computes. -/
def sampleVarV {n : ℕ} (v : Fin n → K) : K :=
  (∑ i, (v i - meanV v) ^ 2) / ((n : K) - 1)

/-- `(eci - eci.mean()) / eci.std()` with numpy population std. -/
def standardize {n : ℕ} (sq : K → K) (v : Fin n → K) (i : Fin n) : K :=
  (v i - meanV v) / sq (popVarV v)

/-- `np.sign`: `-1` on negatives, `1` on positives, `0` at `0`. -/
def sgn (x : K) : K := if x < 0 then -1 else if 0 < x then 1 else 0

/-- Numerator of the Pearson correlation coefficient. -/
def pearsonNum {n : ℕ} (k v : Fin n → K) : K :=
  ∑ i, (k i - meanV k) * (v i - meanV v)

/-- `np.corrcoef(k, v)[0,1]`: Pearson correlation
`∑ dk·dv / (sqrt(∑ dk²) · sqrt(∑ dv²))`. -/
def pearson {n : ℕ} (sq : K → K) (k v : Fin n → K) : K :=
  pearsonNum k v /
    (sq (∑ i, (k i - meanV k) ^ 2) * sq (∑ i, (v i - meanV v) ^ 2))

/-- `__fix_sign`: `ci *= np.sign(np.corrcoef(k, ci)[0,1])`. -/
def fixSign {n : ℕ} (sq : K → K) (k ci : Fin n → K) (i : Fin n) : K :=
  sgn (pearson sq k ci) * ci i

/-- `__calc_eci` after the eigenvector `v` (for the second-largest
eigenvalue of `m_tilda_cc`) has been extracted: standardize, then
sign-correct against diversity. -/
def eciFromVec {nc np : ℕ} (sq : K → K) (mc : Fin nc → Fin np → K)
    (v : Fin nc → K) : Fin nc → K :=
  fixSign sq (diversity mc) (standardize sq v)

/-- `__calc_pci`: standardize the eigenvector of `m_tilda_pp`, sign-correct
against ubiquity, then multiply by `-1` unconditionally
(`self.__pci = self.__fix_sign(kp0, pci) * (-1)`). -/
def pciFromVec {nc np : ℕ} (sq : K → K) (mc : Fin nc → Fin np → K)
    (v : Fin np → K) : Fin np → K :=
  fun p => fixSign sq (ubiquity mc) (standardize sq v) p * (-1)

/-! ## The concrete test scenario

3 entities `A,B,C ↦ 0,1,2`, 3 items `P1,P2,P3 ↦ 0,1,2`, flows
`A-P1=10, A-P2=20, A-P3=30, B-P1=40, B-P2=50, C-P1=60`
(the fixture `data_stub` of `tests/conftest.py`). -/

/-- The observation table of the concrete scenario. -/
def obsStub (K : Type) [LinearOrderedField K] : List (Fin 3 × Fin 3 × K) :=
  [(0, 0, 10), (0, 1, 20), (0, 2, 30), (1, 0, 40), (1, 1, 50), (2, 0, 60)]

/-! ## The attribute/guard model (`utils.check_if_indexes`, `check_if_graph`)

A `Complexity` instance is modelled (for the guard claims) by the set of
Python attribute names present on the object.  Inside `class Complexity`,
an assignment `self.__m = ...` stores, by Python name mangling, the
attribute `_Complexity__m`; the guards in `utils.py` are written *outside*
the class and test the unmangled literals `'_m'` / `'_complete_graph'`. -/

/-- Attributes set by `Complexity.__init__`. -/
def initAttrs : List String :=
  ["_Complexity__df", "_Complexity__c", "_Complexity__p",
   "_Complexity__values", "_Complexity__m_cp_thresh"]

/-- Attributes added by a successful `calculate_indexes()` run
(`self.__m`, `self.__rca`, ..., name-mangled). -/
def calculateIndexesAttrs (attrs : List String) : List String :=
  attrs ++
    ["_Complexity__m", "_Complexity__rca", "_Complexity__m_cp",
     "_Complexity__diversity", "_Complexity__ubiquity", "_Complexity__eci",
     "_Complexity__pci", "_Complexity__proximity", "_Complexity__density",
     "_Complexity__distance"]

/-- Attributes added by `__generate_graphs` followed by the product-space
assignment in `create_product_space` (name-mangled). -/
def generateGraphsAttrs (attrs : List String) : List String :=
  attrs ++ ["_Complexity__complete_graph", "_Complexity__maxst",
            "_Complexity__product_space"]

/-- `check_if_indexes`: `hasattr(self, '_m')`. -/
def checkIfIndexes (attrs : List String) : Bool := attrs.contains "_m"

/-- `check_if_graph`: `hasattr(self, '_complete_graph')`. -/
def checkIfGraph (attrs : List String) : Bool := attrs.contains "_complete_graph"

/-- A `@check_if_indexes`-guarded accessor: pass through when the guard
holds, otherwise `raise Exception('First, calculate indexes!')`. -/
def guardedIndexAccessor (attrs : List String) : Except String Unit :=
  if checkIfIndexes attrs then Except.ok () else Except.error "First, calculate indexes!"

/-- A `@check_if_graph`-guarded accessor: pass through when the guard
holds, otherwise `raise Exception('First, create the Product Space!')`. -/
def guardedGraphAccessor (attrs : List String) : Except String Unit :=
  if checkIfGraph attrs then Except.ok ()
  else Except.error "First, create the Product Space!"

/-! ## The labelled-frame model (`__get_m_cp` reindexing lines)

`m_cp = m_cp[(m_cp != 0).all(axis=0).index]` builds the boolean Series
`(m_cp != 0).all(axis=0)` — indexed by the *column* labels — and then
immediately takes `.index`, i.e. the full list of column labels, and
selects those columns.  The second line does the same with rows via
`.loc`.  The boolean values are dropped by `.index`, so both lines are
no-ops (no row or column is removed). -/

/-- A pandas DataFrame with row labels, column labels and cell lookup. -/
structure DFrame (R C K : Type) where
  rows : List R
  cols : List C
  val : R → C → K

namespace DFrame

variable {R C : Type}

/-- The boolean Series `(df != 0).all(axis=0)`, indexed by column label. -/
def colAllNonzero [DecidableEq K] (df : DFrame R C K) : List (C × Bool) :=
  df.cols.map (fun j => (j, df.rows.all (fun i => df.val i j ≠ 0)))

/-- The boolean Series `(df != 0).all(axis=1)`, indexed by row label. -/
def rowAllNonzero [DecidableEq K] (df : DFrame R C K) : List (R × Bool) :=
  df.rows.map (fun i => (i, df.cols.all (fun j => df.val i j ≠ 0)))

/-- `series.index` — the labels of a Series, its values dropped. -/
def seriesIndex {L : Type} (s : List (L × Bool)) : List L := s.map Prod.fst

/-- Column selection `df[list_of_column_labels]`. -/
def selectCols (df : DFrame R C K) (js : List C) : DFrame R C K :=
  ⟨df.rows, js, df.val⟩

/-- Row selection `df.loc[list_of_row_labels]`. -/
def selectRows (df : DFrame R C K) (is : List R) : DFrame R C K :=
  ⟨is, df.cols, df.val⟩

/-- Elementwise application (the two masking assignments act cellwise). -/
def mapVal (df : DFrame R C K) (f : K → K) : DFrame R C K :=
  ⟨df.rows, df.cols, fun i j => f (df.val i j)⟩

end DFrame

/-- The whole of `__get_m_cp` on a labelled frame: threshold every cell
with the two masking assignments (`df.mapVal (mcpVal τ)`), select the
columns listed by `(m_cp != 0).all(axis=0).index`, then select the rows
listed by `(m_cp != 0).all(axis=1).index`. -/
def getMcpFrame [DecidableEq K] {R C : Type} (df : DFrame R C K) (τ : K) :
    DFrame R C K :=
  ((df.mapVal (mcpVal τ)).selectCols
      (DFrame.seriesIndex (df.mapVal (mcpVal τ)).colAllNonzero)).selectRows
    (DFrame.seriesIndex
      ((df.mapVal (mcpVal τ)).selectCols
        (DFrame.seriesIndex (df.mapVal (mcpVal τ)).colAllNonzero)).rowAllNonzero)

/-! ## The reference/copy model (accessor aliasing, claim on accessors)

Python objects live on a heap; an engine field such as `self.__m` or
`self.__complete_graph` is a reference into it.  A DataFrame accessor
returns `self.__X.copy()` — a *fresh* heap cell holding the same value —
while the graph accessors return `self.__complete_graph` / `self.__maxst` /
`self.__product_space` themselves (no copy).  Mutation through a returned
reference corrupts engine state exactly when the reference is the internal
one. -/

/-- An engine artifact on the Python heap: `heap` is the store, and
`internalRef` the engine's own reference to the artifact. -/
structure EngRef (α : Type) where
  heap : List α
  internalRef : ℕ

/-- Read a heap cell (default value for out-of-range, never used on valid
states). -/
def readRef {α : Type} : List α → ℕ → α → α
  | [], _, d => d
  | a :: _, 0, _ => a
  | _ :: l, n + 1, d => readRef l n d

/-- Overwrite a heap cell in place (mutation of a Python object). -/
def writeAt {α : Type} : List α → ℕ → α → List α
  | [], _, _ => []
  | _ :: l, 0, v => v :: l
  | a :: l, n + 1, v => a :: writeAt l n v

/-- An accessor of the form `return self.__X.copy()`: allocates a fresh
cell holding a copy of the internal value and returns its reference. -/
def copyAccessor {α : Type} (e : EngRef α) (d : α) : ℕ × EngRef α :=
  (e.heap.length, ⟨e.heap ++ [readRef e.heap e.internalRef d], e.internalRef⟩)

/-- An accessor of the form `return self.__X` (the three graph accessors):
returns the engine's internal reference itself. -/
def aliasAccessor {α : Type} (e : EngRef α) : ℕ × EngRef α :=
  (e.internalRef, e)

/-- The caller mutates the object behind the reference it received. -/
def mutateThrough {α : Type} (e : EngRef α) (r : ℕ) (v : α) : EngRef α :=
  ⟨writeAt e.heap r v, e.internalRef⟩

/-- What the engine itself sees afterwards. -/
def internalValue {α : Type} (e : EngRef α) (d : α) : α :=
  readRef e.heap e.internalRef d

/-! ## The product-space graph model (`create_product_space`)

`nx.from_pandas_adjacency(proximity)` creates an undirected edge `{p,q}`
for every nonzero cell of the proximity matrix (the zeroed diagonal adds no
self-loops); edges are modelled as ordered pairs `(p, q)` with `p < q`.
`nx.maximum_spanning_tree` returns a subgraph of its input; the claims only
use that its edge set is contained in the complete graph, so it is a
parameter constrained by that hypothesis.  The loop

    for e in complete_graph.edges(data=True):
        if (e not in product_space.edges()) and (e[2][weight] > thresh):
            product_space.add_edges_from([e])

starts from a copy of the MST and adds every qualifying edge. -/

/-- Edges of `nx.from_pandas_adjacency(proximity)`: an undirected edge
`{p,q}` (stored as `p < q`) for every nonzero off-diagonal cell. -/
def completeGraphEdgeList {n : ℕ} (prox : Fin n → Fin n → K) :
    List (Fin n × Fin n) :=
  ((List.finRange n).flatMap (fun p => (List.finRange n).map (fun q => (p, q)))).filter
    (fun e => e.1 < e.2 ∧ prox e.1 e.2 ≠ 0)

/-- The `create_product_space` loop over an edge list, starting from
`maxst.copy()`. -/
def productSpaceLoop {n : ℕ} (prox : Fin n → Fin n → K) (t : K)
    (mst : Finset (Fin n × Fin n)) (edges : List (Fin n × Fin n)) :
    Finset (Fin n × Fin n) :=
  edges.foldl
    (fun ps e => if e ∉ ps ∧ t < prox e.1 e.2 then insert e ps else ps) mst

/-- `create_product_space(edge_weight_thresh)`: the loop run over the
complete graph's edges. -/
def productSpaceEdges {n : ℕ} (prox : Fin n → Fin n → K) (t : K)
    (mst : Finset (Fin n × Fin n)) : Finset (Fin n × Fin n) :=
  productSpaceLoop prox t mst (completeGraphEdgeList prox)

/-- Entry values of 3-vector literals (all definitional; stated for both
numeral and `Fin.mk` index forms so `simp` can close concrete goals). -/
lemma vec3_at0 {A : Type} (a b c : A) : ![a, b, c] 0 = a := rfl

lemma vec3_at1 {A : Type} (a b c : A) : ![a, b, c] 1 = b := rfl

lemma vec3_at2 {A : Type} (a b c : A) : ![a, b, c] 2 = c := rfl

lemma vec3_mk0 {A : Type} (a b c : A) (h : 0 < 3) : ![a, b, c] ⟨0, h⟩ = a := rfl

lemma vec3_mk1 {A : Type} (a b c : A) (h : 1 < 3) : ![a, b, c] ⟨1, h⟩ = b := rfl

lemma vec3_mk2 {A : Type} (a b c : A) (h : 2 < 3) : ![a, b, c] ⟨2, h⟩ = c := rfl

lemma vec2_at0 {A : Type} (a b : A) : ![a, b] 0 = a := rfl

lemma vec2_at1 {A : Type} (a b : A) : ![a, b] 1 = b := rfl

lemma vec2_mk0 {A : Type} (a b : A) (h : 0 < 2) : ![a, b] ⟨0, h⟩ = a := rfl

lemma vec2_mk1 {A : Type} (a b : A) (h : 1 < 2) : ![a, b] ⟨1, h⟩ = b := rfl

/-- The pivoted matrix `M` of the concrete scenario. -/
lemma mStub_eval (c p : Fin 3) :
    buildM (obsStub K) c p = ![![10, 20, 30], ![40, 50, 0], ![60, 0, 0]] c p := by
  fin_cases c <;> fin_cases p <;>
    simp [buildM, obsStub, List.filter_cons, Matrix.vecHead, Matrix.vecTail]

/-- The exact RCA matrix of the concrete scenario. -/
lemma rcaStub_eval (c p : Fin 3) :
    rca (buildM (obsStub K)) c p =
      ![![7/22, 1, 7/2], ![28/33, 5/3, 0], ![21/11, 0, 0]] c p := by
  have h : ∀ c p, buildM (obsStub K) c p =
      ![![10, 20, 30], ![40, 50, 0], ![60, 0, 0]] c p := mStub_eval
  fin_cases c <;> fin_cases p <;>
    · simp only [rca, sumRow, sumCol, sumTot, Fin.sum_univ_three, h]
      simp [Matrix.vecHead, Matrix.vecTail]
      try norm_num

/-- `M_cp` of the concrete scenario at the default threshold `τ = 1`. -/
lemma mcpStub_eval (c p : Fin 3) :
    mcpOf (rca (buildM (obsStub K))) 1 c p =
      ![![0, 1, 1], ![0, 1, 0], ![1, 0, 0]] c p := by
  have h := rcaStub_eval (K := K)
  fin_cases c <;> fin_cases p <;>
    · simp only [mcpOf, mcpVal, mask1, mask2, h]
      norm_num [Matrix.vecHead, Matrix.vecTail]

/-- Diversity of the concrete scenario: `[2, 1, 1]` for `A, B, C`. -/
lemma diversityStub_eval (c : Fin 3) :
    diversity (mcpOf (rca (buildM (obsStub K))) 1) c = ![2, 1, 1] c := by
  have h := mcpStub_eval (K := K)
  fin_cases c <;>
    · simp only [diversity, Fin.sum_univ_three, h]
      norm_num [Matrix.vecHead, Matrix.vecTail]

/-- Ubiquity of the concrete scenario: `[1, 2, 1]` for `P1, P2, P3`. -/
lemma ubiquityStub_eval (p : Fin 3) :
    ubiquity (mcpOf (rca (buildM (obsStub K))) 1) p = ![1, 2, 1] p := by
  have h := mcpStub_eval (K := K)
  fin_cases p <;>
    · simp only [ubiquity, Fin.sum_univ_three, h]
      norm_num [Matrix.vecHead, Matrix.vecTail]

/-- The entity-side transition matrix of the concrete scenario. -/
lemma mTildaCCStub_eval (i j : Fin 3) :
    mTildaCC (mcpOf (rca (buildM (obsStub K))) 1) i j =
      ![![3/4, 1/4, 0], ![1/2, 1/2, 0], ![0, 0, 1]] i j := by
  have h := mcpStub_eval (K := K)
  have hd := diversityStub_eval (K := K)
  have hu := ubiquityStub_eval (K := K)
  fin_cases i <;> fin_cases j <;>
    · simp only [mTildaCC, Fin.sum_univ_three, h, hd, hu]
      norm_num [Matrix.vecHead, Matrix.vecTail]

/-- The item-side transition matrix of the concrete scenario. -/
lemma mTildaPPStub_eval (p q : Fin 3) :
    mTildaPP (mcpOf (rca (buildM (obsStub K))) 1) p q =
      ![![1, 0, 0], ![0, 3/4, 1/4], ![0, 1/2, 1/2]] p q := by
  have h := mcpStub_eval (K := K)
  have hd := diversityStub_eval (K := K)
  have hu := ubiquityStub_eval (K := K)
  fin_cases p <;> fin_cases q <;>
    · simp only [mTildaPP, Fin.sum_univ_three, h, hd, hu]
      norm_num [Matrix.vecHead, Matrix.vecTail]

/-- Membership in the loop's result: the initial tree's edges plus every
listed edge of weight above the threshold. -/
lemma productSpaceLoop_mem {n : ℕ} (prox : Fin n → Fin n → K) (t : K)
    (mst : Finset (Fin n × Fin n)) (edges : List (Fin n × Fin n))
    (x : Fin n × Fin n) :
    x ∈ productSpaceLoop prox t mst edges ↔
      x ∈ mst ∨ (x ∈ edges ∧ t < prox x.1 x.2) := by
  induction edges generalizing mst with
  | nil => simp [productSpaceLoop]
  | cons e es ih =>
    have hstep : productSpaceLoop prox t mst (e :: es) =
        productSpaceLoop prox t
          (if e ∉ mst ∧ t < prox e.1 e.2 then insert e mst else mst) es := rfl
    rw [hstep]
    by_cases hc : e ∉ mst ∧ t < prox e.1 e.2
    · rw [if_pos hc, ih]
      simp only [Finset.mem_insert, List.mem_cons]
      constructor
      · rintro ((rfl | hx) | ⟨hx, hw⟩)
        · exact Or.inr ⟨Or.inl rfl, hc.2⟩
        · exact Or.inl hx
        · exact Or.inr ⟨Or.inr hx, hw⟩
      · rintro (hx | ⟨(rfl | hx), hw⟩)
        · exact Or.inl (Or.inr hx)
        · exact Or.inl (Or.inl rfl)
        · exact Or.inr ⟨hx, hw⟩
    · rw [if_neg hc, ih]
      push_neg at hc
      simp only [List.mem_cons]
      constructor
      · rintro (hx | ⟨hx, hw⟩)
        · exact Or.inl hx
        · exact Or.inr ⟨Or.inr hx, hw⟩
      · rintro (hx | ⟨(rfl | hx), hw⟩)
        · exact Or.inl hx
        · exact Or.inl (by by_contra hmem; exact absurd hw (not_lt.mpr (hc hmem)))
        · exact Or.inr ⟨hx, hw⟩

/-! ## Invariance of standardize/fix-sign under affine reparametrization

An eigenvector returned by `np.linalg.eig` is only determined up to a
nonzero scalar (and, inside a 2-dimensional eigenspace containing the
constant vector, up to adding a constant).  The composition
standardize-then-fix-sign is invariant under `v ↦ a·v + b` for `a ≠ 0`,
which lets the claims quantify over every admissible eigenvector. -/

lemma sgn_of_pos {x : K} (h : 0 < x) : sgn x = 1 := by
  simp [sgn, h, not_lt.mpr h.le]

lemma sgn_of_neg {x : K} (h : x < 0) : sgn x = -1 := by
  simp [sgn, h]

lemma sum_dev_eq_zero {n : ℕ} (v : Fin n → K) (hn : (n : K) ≠ 0) :
    ∑ i, (v i - meanV v) = 0 := by
  simp only [Finset.sum_sub_distrib, Finset.sum_const, Finset.card_univ,
    Fintype.card_fin, meanV]
  field_simp

lemma meanV_affine {n : ℕ} (a b : K) (v : Fin n → K) (hn : (n : K) ≠ 0) :
    meanV (fun i => a * v i + b) = a * meanV v + b := by
  simp only [meanV, Finset.sum_add_distrib, Finset.sum_const, Finset.card_univ,
    Fintype.card_fin, ← Finset.mul_sum, nsmul_eq_mul]
  field_simp
  ring

lemma popVarV_affine {n : ℕ} (a b : K) (v : Fin n → K) (hn : (n : K) ≠ 0) :
    popVarV (fun i => a * v i + b) = a ^ 2 * popVarV v := by
  unfold popVarV
  rw [meanV_affine a b v hn,
    show (∑ i, (a * v i + b - (a * meanV v + b)) ^ 2) =
        ∑ i, a ^ 2 * (v i - meanV v) ^ 2 from
      Finset.sum_congr rfl (fun i _ => by ring),
    ← Finset.mul_sum, mul_div_assoc]

lemma popVarV_nonneg {n : ℕ} (v : Fin n → K) : 0 ≤ popVarV v :=
  div_nonneg (Finset.sum_nonneg fun i _ => sq_nonneg _) (Nat.cast_nonneg n)

lemma standardize_affine {n : ℕ} (a b : ℝ) (v : Fin n → ℝ) (ha : a ≠ 0)
    (hn : (n : ℝ) ≠ 0) :
    standardize Real.sqrt (fun i => a * v i + b) =
      fun i => sgn a * standardize Real.sqrt v i := by
  funext i
  simp only [standardize, meanV_affine a b v hn, popVarV_affine a b v hn]
  have hsq : Real.sqrt (a ^ 2 * popVarV v) = |a| * Real.sqrt (popVarV v) := by
    rw [Real.sqrt_mul (sq_nonneg a), Real.sqrt_sq_eq_abs]
  rw [hsq]
  have hnum : a * v i + b - (a * meanV v + b) = a * (v i - meanV v) := by ring
  rw [hnum]
  rcases lt_or_gt_of_ne ha with hlt | hgt
  · rw [abs_of_neg hlt, sgn_of_neg hlt]
    rw [show -a * Real.sqrt (popVarV v) = -(a * Real.sqrt (popVarV v)) by ring,
      div_neg, mul_div_mul_left _ _ ha]
    ring
  · rw [abs_of_pos hgt, sgn_of_pos hgt, mul_div_mul_left _ _ ha, one_mul]

lemma meanV_smul {n : ℕ} (s : K) (v : Fin n → K) :
    meanV (fun i => s * v i) = s * meanV v := by
  unfold meanV
  rw [← mul_div_assoc, Finset.mul_sum]

lemma pearson_smul_sq {n : ℕ} (sq : K → K) (k v : Fin n → K) (s : K)
    (hs : s = 1 ∨ s = -1) :
    pearson sq k (fun i => s * v i) = s * pearson sq k v := by
  have hsq : s ^ 2 = 1 := by rcases hs with rfl | rfl <;> norm_num
  have hdev : ∀ i, s * v i - meanV (fun i => s * v i) = s * (v i - meanV v) := by
    intro i
    rw [meanV_smul]
    ring
  have hnum : pearsonNum k (fun i => s * v i) = s * pearsonNum k v := by
    unfold pearsonNum
    rw [Finset.mul_sum]
    refine Finset.sum_congr rfl (fun i _ => ?_)
    rw [hdev]
    ring
  have hden : (∑ i, (s * v i - meanV (fun i => s * v i)) ^ 2) =
      ∑ i, (v i - meanV v) ^ 2 := by
    refine Finset.sum_congr rfl (fun i _ => ?_)
    rw [hdev, mul_pow, hsq, one_mul]
  simp only [pearson, hnum, hden, mul_div_assoc]

lemma sgn_neg_eq (x : K) : sgn (-x) = - sgn x := by
  rcases lt_trichotomy x 0 with h | rfl | h
  · rw [sgn_of_neg h, sgn_of_pos (by linarith : (0:K) < -x)]
    norm_num
  · simp [sgn]
  · rw [sgn_of_pos h, sgn_of_neg (by linarith : -x < (0:K))]

lemma fixSign_smul {n : ℕ} (sq : K → K) (k v : Fin n → K) (s : K)
    (hs : s = 1 ∨ s = -1) :
    fixSign sq k (fun i => s * v i) = fixSign sq k v := by
  funext i
  simp only [fixSign, pearson_smul_sq sq k v s hs]
  rcases hs with rfl | rfl
  · simp
  · rw [show (-1 : K) * pearson sq k v = -(pearson sq k v) by ring, sgn_neg_eq]
    ring

/-- The engine's ECI is invariant under affine reparametrization of the
chosen eigenvector (`a ≠ 0`). -/
lemma eciFromVec_affine {nc np : ℕ} (mc : Fin nc → Fin np → ℝ) (a b : ℝ)
    (v : Fin nc → ℝ) (ha : a ≠ 0) (hn : (nc : ℝ) ≠ 0) :
    eciFromVec Real.sqrt mc (fun i => a * v i + b) = eciFromVec Real.sqrt mc v := by
  have hsgn : sgn a = 1 ∨ sgn a = -1 := by
    rcases lt_or_gt_of_ne ha with h | h
    · exact Or.inr (sgn_of_neg h)
    · exact Or.inl (sgn_of_pos h)
  unfold eciFromVec
  rw [standardize_affine a b v ha hn, fixSign_smul _ _ _ _ hsgn]

/-- Likewise for PCI. -/
lemma pciFromVec_affine {nc np : ℕ} (mc : Fin nc → Fin np → ℝ) (a b : ℝ)
    (v : Fin np → ℝ) (ha : a ≠ 0) (hn : (np : ℝ) ≠ 0) :
    pciFromVec Real.sqrt mc (fun i => a * v i + b) = pciFromVec Real.sqrt mc v := by
  have hsgn : sgn a = 1 ∨ sgn a = -1 := by
    rcases lt_or_gt_of_ne ha with h | h
    · exact Or.inr (sgn_of_neg h)
    · exact Or.inl (sgn_of_pos h)
  unfold pciFromVec
  rw [standardize_affine a b v ha hn, fixSign_smul _ _ _ _ hsgn]

/-! ## Concrete eigenvector computations for the test scenario (over `ℝ`) -/

lemma sqrt_two_ninths : Real.sqrt (2 / 9) = Real.sqrt 2 / 3 := by
  rw [show (2 / 9 : ℝ) = (Real.sqrt 2 / 3) ^ 2 by
    rw [div_pow, Real.sq_sqrt (by norm_num : (0:ℝ) ≤ 2)]
    norm_num]
  exact Real.sqrt_sq (by positivity)

lemma popVar_stub_eci : popVarV ![(1:ℝ), 1, 0] = 2 / 9 := by
  simp only [popVarV, meanV, Fin.sum_univ_three, Matrix.cons_val_zero,
    Matrix.cons_val_one, Matrix.cons_val_two, Matrix.head_cons, Matrix.vecHead, Matrix.vecTail]
  norm_num

lemma popVar_stub_pci : popVarV ![(1:ℝ), 0, 0] = 2 / 9 := by
  simp only [popVarV, meanV, Fin.sum_univ_three, Matrix.cons_val_zero,
    Matrix.cons_val_one, Matrix.cons_val_two, Matrix.head_cons, Matrix.vecHead, Matrix.vecTail]
  norm_num

lemma std_stub_eci :
    standardize Real.sqrt ![(1:ℝ), 1, 0] =
      ![Real.sqrt 2 / 2, Real.sqrt 2 / 2, -Real.sqrt 2] := by
  have h2 : (0:ℝ) < Real.sqrt 2 := Real.sqrt_pos.mpr (by norm_num)
  have hs : Real.sqrt 2 * Real.sqrt 2 = 2 :=
    Real.mul_self_sqrt (by norm_num : (0:ℝ) ≤ 2)
  have h0 : Real.sqrt 2 ≠ 0 := ne_of_gt h2
  funext i
  simp only [standardize, popVar_stub_eci, sqrt_two_ninths, meanV,
    Fin.sum_univ_three]
  fin_cases i <;>
    · simp [Matrix.vecHead, Matrix.vecTail]
      try field_simp
      try nlinarith [hs]

lemma std_stub_pci :
    standardize Real.sqrt ![(1:ℝ), 0, 0] =
      ![Real.sqrt 2, -(Real.sqrt 2 / 2), -(Real.sqrt 2 / 2)] := by
  have h2 : (0:ℝ) < Real.sqrt 2 := Real.sqrt_pos.mpr (by norm_num)
  have hs : Real.sqrt 2 * Real.sqrt 2 = 2 :=
    Real.mul_self_sqrt (by norm_num : (0:ℝ) ≤ 2)
  have h0 : Real.sqrt 2 ≠ 0 := ne_of_gt h2
  funext i
  simp only [standardize, popVar_stub_pci, sqrt_two_ninths, meanV,
    Fin.sum_univ_three]
  fin_cases i <;>
    · simp [Matrix.vecHead, Matrix.vecTail]
      try field_simp
      try nlinarith [hs]

lemma pearson_stub_eci_pos :
    0 < pearson Real.sqrt ![(2:ℝ), 1, 1]
        ![Real.sqrt 2 / 2, Real.sqrt 2 / 2, -Real.sqrt 2] := by
  have h2 : (0:ℝ) < Real.sqrt 2 := Real.sqrt_pos.mpr (by norm_num)
  have hmk : meanV ![(2:ℝ), 1, 1] = 4 / 3 := by
    simp only [meanV, Fin.sum_univ_three, Matrix.cons_val_zero,
      Matrix.cons_val_one, Matrix.cons_val_two, Matrix.head_cons, Matrix.vecHead, Matrix.vecTail]
    norm_num
  have hmw : meanV ![Real.sqrt 2 / 2, Real.sqrt 2 / 2, -Real.sqrt 2] = 0 := by
    simp [meanV, Fin.sum_univ_three, Matrix.vecHead, Matrix.vecTail]
    try ring
  have hnum : pearsonNum ![(2:ℝ), 1, 1]
      ![Real.sqrt 2 / 2, Real.sqrt 2 / 2, -Real.sqrt 2] = Real.sqrt 2 / 2 := by
    simp [pearsonNum, hmk, hmw, Fin.sum_univ_three, Matrix.vecHead, Matrix.vecTail]
    try ring
  unfold pearson
  rw [hnum]
  refine div_pos (by positivity) (mul_pos ?_ ?_) <;>
    · refine Real.sqrt_pos.mpr ?_
      simp [hmk, hmw, Fin.sum_univ_three, Matrix.vecHead, Matrix.vecTail]
      nlinarith [Real.mul_self_sqrt (by norm_num : (0:ℝ) ≤ 2), h2]

lemma pearson_stub_pci_neg :
    pearson Real.sqrt ![(1:ℝ), 2, 1]
        ![Real.sqrt 2, -(Real.sqrt 2 / 2), -(Real.sqrt 2 / 2)] < 0 := by
  have h2 : (0:ℝ) < Real.sqrt 2 := Real.sqrt_pos.mpr (by norm_num)
  have hmk : meanV ![(1:ℝ), 2, 1] = 4 / 3 := by
    simp only [meanV, Fin.sum_univ_three, Matrix.cons_val_zero,
      Matrix.cons_val_one, Matrix.cons_val_two, Matrix.head_cons, Matrix.vecHead, Matrix.vecTail]
    norm_num
  have hmw : meanV ![Real.sqrt 2, -(Real.sqrt 2 / 2), -(Real.sqrt 2 / 2)] = 0 := by
    simp [meanV, Fin.sum_univ_three, Matrix.vecHead, Matrix.vecTail]
    try ring
  have hnum : pearsonNum ![(1:ℝ), 2, 1]
      ![Real.sqrt 2, -(Real.sqrt 2 / 2), -(Real.sqrt 2 / 2)] =
        -(Real.sqrt 2 / 2) := by
    simp [pearsonNum, hmk, hmw, Fin.sum_univ_three, Matrix.vecHead, Matrix.vecTail]
    try ring
  unfold pearson
  rw [hnum]
  refine div_neg_of_neg_of_pos (by simp [h2]) (mul_pos ?_ ?_) <;>
    · refine Real.sqrt_pos.mpr ?_
      simp [hmk, hmw, Fin.sum_univ_three, Matrix.vecHead, Matrix.vecTail]
      nlinarith [Real.mul_self_sqrt (by norm_num : (0:ℝ) ≤ 2), h2]

/-- The pipeline's ECI for the scenario, computed from the reference
eigenvector `(1,1,0)` of eigenvalue 1. -/
lemma eciStub_val :
    eciFromVec Real.sqrt (mcpOf (rca (buildM (obsStub ℝ))) 1) ![(1:ℝ), 1, 0] =
      ![Real.sqrt 2 / 2, Real.sqrt 2 / 2, -Real.sqrt 2] := by
  have hdiv : diversity (mcpOf (rca (buildM (obsStub ℝ))) 1) = ![2, 1, 1] :=
    funext diversityStub_eval
  unfold eciFromVec
  rw [hdiv, std_stub_eci]
  funext i
  unfold fixSign
  rw [sgn_of_pos pearson_stub_eci_pos, one_mul]

/-- The pipeline's PCI for the scenario, computed from the reference
eigenvector `(1,0,0)` of eigenvalue 1. -/
lemma pciStub_val :
    pciFromVec Real.sqrt (mcpOf (rca (buildM (obsStub ℝ))) 1) ![(1:ℝ), 0, 0] =
      ![Real.sqrt 2, -(Real.sqrt 2 / 2), -(Real.sqrt 2 / 2)] := by
  have hub : ubiquity (mcpOf (rca (buildM (obsStub ℝ))) 1) = ![1, 2, 1] :=
    funext ubiquityStub_eval
  unfold pciFromVec fixSign
  rw [hub, std_stub_pci, sgn_of_neg pearson_stub_pci_neg]
  funext i
  ring

/-- Any eigenvector of `m_tilda_cc` for eigenvalue 1 has equal first two
coordinates (row B of the eigen-equation). -/
lemma eci_eigvec_coords (v : Fin 3 → ℝ)
    (hv : ∀ i, (∑ j, mTildaCC (mcpOf (rca (buildM (obsStub ℝ))) 1) i j * v j) = v i) :
    v 1 = v 0 := by
  have h := hv 1
  rw [Fin.sum_univ_three, mTildaCCStub_eval (K := ℝ) 1 0,
    mTildaCCStub_eval (K := ℝ) 1 1, mTildaCCStub_eval (K := ℝ) 1 2] at h
  simp only [vec3_at0, vec3_at1, vec3_at2, vec3_mk0, vec3_mk1, vec3_mk2] at h
  linarith

/-- Any eigenvector of `m_tilda_pp` for eigenvalue 1 has equal last two
coordinates (row P2 of the eigen-equation). -/
lemma pci_eigvec_coords (v : Fin 3 → ℝ)
    (hv : ∀ p, (∑ q, mTildaPP (mcpOf (rca (buildM (obsStub ℝ))) 1) p q * v q) = v p) :
    v 2 = v 1 := by
  have h := hv 1
  rw [Fin.sum_univ_three, mTildaPPStub_eval (K := ℝ) 1 0,
    mTildaPPStub_eval (K := ℝ) 1 1, mTildaPPStub_eval (K := ℝ) 1 2] at h
  simp only [vec3_at0, vec3_at1, vec3_at2, vec3_mk0, vec3_mk1, vec3_mk2] at h
  linarith

/-- Every admissible (non-constant) eigenvector of eigenvalue 1 of
`m_tilda_cc` produces the same ECI as the reference eigenvector. -/
lemma eciStub_of_eigvec (v : Fin 3 → ℝ)
    (hv : ∀ i, (∑ j, mTildaCC (mcpOf (rca (buildM (obsStub ℝ))) 1) i j * v j) = v i)
    (hne : v 0 ≠ v 2) :
    eciFromVec Real.sqrt (mcpOf (rca (buildM (obsStub ℝ))) 1) v =
      ![Real.sqrt 2 / 2, Real.sqrt 2 / 2, -Real.sqrt 2] := by
  have h10 := eci_eigvec_coords v hv
  have hrepr : v = fun i => (v 0 - v 2) * (![(1:ℝ), 1, 0]) i + v 2 := by
    funext i
    fin_cases i
    · simp only [vec3_at0, vec3_at1, vec3_at2, vec3_mk0, vec3_mk1, vec3_mk2]
      show v 0 = (v 0 - v 2) * 1 + v 2
      ring
    · simp only [vec3_at0, vec3_at1, vec3_at2, vec3_mk0, vec3_mk1, vec3_mk2]
      show v 1 = (v 0 - v 2) * 1 + v 2
      rw [h10]
      ring
    · simp only [vec3_at0, vec3_at1, vec3_at2, vec3_mk0, vec3_mk1, vec3_mk2]
      show v 2 = (v 0 - v 2) * 0 + v 2
      ring
  calc eciFromVec Real.sqrt (mcpOf (rca (buildM (obsStub ℝ))) 1) v
      = eciFromVec Real.sqrt (mcpOf (rca (buildM (obsStub ℝ))) 1)
          (fun i => (v 0 - v 2) * (![(1:ℝ), 1, 0]) i + v 2) := by rw [← hrepr]
    _ = eciFromVec Real.sqrt (mcpOf (rca (buildM (obsStub ℝ))) 1) ![(1:ℝ), 1, 0] :=
        eciFromVec_affine _ _ _ _ (sub_ne_zero.mpr hne) (by norm_num)
    _ = ![Real.sqrt 2 / 2, Real.sqrt 2 / 2, -Real.sqrt 2] := eciStub_val

/-- Every admissible (non-constant) eigenvector of eigenvalue 1 of
`m_tilda_pp` produces the same PCI as the reference eigenvector. -/
lemma pciStub_of_eigvec (v : Fin 3 → ℝ)
    (hv : ∀ p, (∑ q, mTildaPP (mcpOf (rca (buildM (obsStub ℝ))) 1) p q * v q) = v p)
    (hne : v 0 ≠ v 1) :
    pciFromVec Real.sqrt (mcpOf (rca (buildM (obsStub ℝ))) 1) v =
      ![Real.sqrt 2, -(Real.sqrt 2 / 2), -(Real.sqrt 2 / 2)] := by
  have h21 := pci_eigvec_coords v hv
  have hrepr : v = fun i => (v 0 - v 1) * (![(1:ℝ), 0, 0]) i + v 1 := by
    funext i
    fin_cases i
    · simp only [vec3_at0, vec3_at1, vec3_at2, vec3_mk0, vec3_mk1, vec3_mk2]
      show v 0 = (v 0 - v 1) * 1 + v 1
      ring
    · simp only [vec3_at0, vec3_at1, vec3_at2, vec3_mk0, vec3_mk1, vec3_mk2]
      show v 1 = (v 0 - v 1) * 0 + v 1
      ring
    · simp only [vec3_at0, vec3_at1, vec3_at2, vec3_mk0, vec3_mk1, vec3_mk2]
      show v 2 = (v 0 - v 1) * 0 + v 1
      rw [h21]
      ring
  calc pciFromVec Real.sqrt (mcpOf (rca (buildM (obsStub ℝ))) 1) v
      = pciFromVec Real.sqrt (mcpOf (rca (buildM (obsStub ℝ))) 1)
          (fun i => (v 0 - v 1) * (![(1:ℝ), 0, 0]) i + v 1) := by rw [← hrepr]
    _ = pciFromVec Real.sqrt (mcpOf (rca (buildM (obsStub ℝ))) 1) ![(1:ℝ), 0, 0] :=
        pciFromVec_affine _ _ _ _ (sub_ne_zero.mpr hne) (by norm_num)
    _ = ![Real.sqrt 2, -(Real.sqrt 2 / 2), -(Real.sqrt 2 / 2)] := pciStub_val

/-! ## Heap lemmas for the copy/alias model -/

lemma readRef_writeAt_same {α : Type} (h : List α) (r : ℕ) (v d : α)
    (hr : r < h.length) : readRef (writeAt h r v) r d = v := by
  induction h generalizing r with
  | nil => simp at hr
  | cons a l ih =>
    cases r with
    | zero => rfl
    | succ n =>
      simp only [writeAt, readRef]
      exact ih n (by simpa using hr)

lemma readRef_writeAt_ne {α : Type} (h : List α) (r r' : ℕ) (v d : α)
    (hne : r ≠ r') : readRef (writeAt h r v) r' d = readRef h r' d := by
  induction h generalizing r r' with
  | nil => cases r <;> rfl
  | cons a l ih =>
    cases r with
    | zero =>
      cases r' with
      | zero => exact absurd rfl hne
      | succ m => rfl
    | succ n =>
      cases r' with
      | zero => rfl
      | succ m =>
        simp only [writeAt, readRef]
        exact ih n m (fun hnm => hne (by rw [hnm]))

lemma readRef_append_left {α : Type} (h t : List α) (r : ℕ) (d : α)
    (hr : r < h.length) : readRef (h ++ t) r d = readRef h r d := by
  induction h generalizing r with
  | nil => simp at hr
  | cons a l ih =>
    cases r with
    | zero => rfl
    | succ n =>
      simp only [List.cons_append, readRef]
      exact ih n (by simpa using hr)

/-! ## Second-largest-eigenvalue justification for the scenario

`np.linalg.eig` may list the eigenvalues in any order; `argsort()[-2]`
selects the position of the second-largest (ascending sort, index `n-2`).
The characteristic polynomial of both transition matrices factors as
`(x-1)²(x-1/4)`, so the multiset of eigenvalues is `{1/4, 1, 1}` and the
second-largest entry of the sorted list is `1` — the hypotheses of the
eigenvector claims quantify over exactly the eigenvectors of eigenvalue 1. -/

lemma charpoly_mTildaCC_stub (x : ℝ) :
    Matrix.det (x • (1 : Matrix (Fin 3) (Fin 3) ℝ) -
        Matrix.of (mTildaCC (mcpOf (rca (buildM (obsStub ℝ))) 1))) =
      (x - 1) ^ 2 * (x - 1 / 4) := by
  rw [Matrix.det_fin_three]
  simp only [Matrix.sub_apply, Matrix.smul_apply, Matrix.one_apply,
    Matrix.of_apply, mTildaCCStub_eval (K := ℝ)]
  simp [vec3_at0, vec3_at1, vec3_at2, Matrix.vecHead, Matrix.vecTail]
  ring

lemma charpoly_mTildaPP_stub (x : ℝ) :
    Matrix.det (x • (1 : Matrix (Fin 3) (Fin 3) ℝ) -
        Matrix.of (mTildaPP (mcpOf (rca (buildM (obsStub ℝ))) 1))) =
      (x - 1) ^ 2 * (x - 1 / 4) := by
  rw [Matrix.det_fin_three]
  simp only [Matrix.sub_apply, Matrix.smul_apply, Matrix.one_apply,
    Matrix.of_apply, mTildaPPStub_eval (K := ℝ)]
  simp [vec3_at0, vec3_at1, vec3_at2, Matrix.vecHead, Matrix.vecTail]
  ring

/-! ## Mean/variance of the standardized, sign-fixed vectors (for the
standardization claim) -/

lemma meanV_standardize {n : ℕ} (v : Fin n → ℝ) (hn : (n : ℝ) ≠ 0) :
    meanV (standardize Real.sqrt v) = 0 := by
  unfold meanV standardize
  rw [← Finset.sum_div, sum_dev_eq_zero v hn]
  simp

lemma popVarV_standardize {n : ℕ} (v : Fin n → ℝ) (hn : (n : ℝ) ≠ 0)
    (hvar : popVarV v ≠ 0) :
    popVarV (standardize Real.sqrt v) = 1 := by
  have hm := meanV_standardize v hn
  have hs : Real.sqrt (popVarV v) ^ 2 = popVarV v :=
    Real.sq_sqrt (popVarV_nonneg v)
  have hent : ∀ i, (standardize Real.sqrt v i -
      meanV (standardize Real.sqrt v)) ^ 2 =
        (v i - meanV v) ^ 2 / popVarV v := by
    intro i
    rw [hm, sub_zero]
    unfold standardize
    rw [div_pow, hs]
  unfold popVarV
  rw [Finset.sum_congr rfl (fun i _ => hent i), ← Finset.sum_div, div_div,
    mul_comm, ← div_div]
  show popVarV v / popVarV v = 1
  exact div_self hvar

lemma sgn_cases_of_ne {x : K} (hx : x ≠ 0) : sgn x = 1 ∨ sgn x = -1 := by
  rcases lt_or_gt_of_ne hx with h | h
  · exact Or.inr (sgn_of_neg h)
  · exact Or.inl (sgn_of_pos h)

lemma meanV_fixSign_standardize {n : ℕ} (k v : Fin n → ℝ) (hn : (n : ℝ) ≠ 0) :
    meanV (fixSign Real.sqrt k (standardize Real.sqrt v)) = 0 := by
  unfold fixSign
  rw [meanV_smul, meanV_standardize v hn, mul_zero]

lemma popVarV_smul {n : ℕ} (s : K) (v : Fin n → K) :
    popVarV (fun i => s * v i) = s ^ 2 * popVarV v := by
  have h : (fun i => s * v i) = fun i => s * v i + 0 := by funext i; ring
  rw [h]
  by_cases hn : (n : K) = 0
  · unfold popVarV
    rw [hn]
    simp
  · exact popVarV_affine s 0 v hn

lemma popVarV_fixSign_standardize {n : ℕ} (k v : Fin n → ℝ) (hn : (n : ℝ) ≠ 0)
    (hvar : popVarV v ≠ 0)
    (hcorr : pearson Real.sqrt k (standardize Real.sqrt v) ≠ 0) :
    popVarV (fixSign Real.sqrt k (standardize Real.sqrt v)) = 1 := by
  unfold fixSign
  rw [popVarV_smul]
  rcases sgn_cases_of_ne hcorr with h | h <;>
    rw [h, popVarV_standardize v hn hvar] <;> norm_num

/-! ## Bounds used by the proximity claim -/

lemma mcpVal_mem (τ x : K) : mcpVal τ x = 0 ∨ mcpVal τ x = 1 := by
  unfold mcpVal mask1 mask2
  split_ifs with h1 h2 h3
  · exact Or.inl rfl
  · exact Or.inr rfl
  · exact Or.inl rfl
  · exact absurd (lt_of_not_le h1) h3

lemma ubiquity_nonneg {nc np : ℕ} (mc : Fin nc → Fin np → K)
    (hmc : ∀ c p, mc c p = 0 ∨ mc c p = 1) (p : Fin np) :
    0 ≤ ubiquity mc p := by
  refine Finset.sum_nonneg fun c _ => ?_
  rcases hmc c p with h | h <;> rw [h] <;> norm_num

lemma phiRaw_nonneg {nc np : ℕ} (mc : Fin nc → Fin np → K)
    (hmc : ∀ c p, mc c p = 0 ∨ mc c p = 1) (p q : Fin np) :
    0 ≤ phiRaw mc p q := by
  refine Finset.sum_nonneg fun c _ => ?_
  rcases hmc c p with h | h <;> rcases hmc c q with h' | h' <;>
    rw [h, h'] <;> norm_num

lemma phiRaw_symm {nc np : ℕ} (mc : Fin nc → Fin np → K) (p q : Fin np) :
    phiRaw mc p q = phiRaw mc q p := by
  unfold phiRaw
  exact Finset.sum_congr rfl fun c _ => mul_comm _ _

lemma phiRaw_le_ubiquity {nc np : ℕ} (mc : Fin nc → Fin np → K)
    (hmc : ∀ c p, mc c p = 0 ∨ mc c p = 1) (p q : Fin np) :
    phiRaw mc p q ≤ ubiquity mc q := by
  unfold phiRaw ubiquity
  refine Finset.sum_le_sum fun c _ => ?_
  rcases hmc c p with h | h <;> rcases hmc c q with h' | h' <;>
    rw [h, h'] <;> norm_num

/-- Mapping `Prod.fst` over label/value pairs built from a label list
recovers the label list (what `.index` does to a Series). -/
lemma map_fst_pair {A B : Type} (l : List A) (g : A → B) :
    (l.map (fun j => (j, g j))).map Prod.fst = l := by
  induction l with
  | nil => rfl
  | cons a t ih => simp [ih]

/-- `seriesIndex` applied to the column boolean Series recovers exactly the
full column index — the boolean values are discarded. -/
lemma seriesIndex_colAllNonzero {R C : Type} [DecidableEq K]
    (df : DFrame R C K) :
    DFrame.seriesIndex df.colAllNonzero = df.cols := by
  unfold DFrame.seriesIndex DFrame.colAllNonzero
  exact map_fst_pair _ _

/-- Likewise for the row boolean Series. -/
lemma seriesIndex_rowAllNonzero {R C : Type} [DecidableEq K]
    (df : DFrame R C K) :
    DFrame.seriesIndex df.rowAllNonzero = df.rows := by
  unfold DFrame.seriesIndex DFrame.rowAllNonzero
  exact map_fst_pair _ _

/-- The whole of `__get_m_cp` on a labelled frame in closed form: the
reindexing steps change neither the row list, nor the column list, nor any
cell. -/
lemma getMcpFrame_eq {R C : Type} [DecidableEq K] (df : DFrame R C K) (τ : K) :
    getMcpFrame df τ =
      ⟨df.rows, df.cols, fun i j => mcpVal τ (df.val i j)⟩ := by
  unfold getMcpFrame
  rw [seriesIndex_colAllNonzero, seriesIndex_rowAllNonzero]
  rfl

end Econci

open Econci

/-- **C1** (code_bug): the pipeline sets the name-mangled attributes
`_Complexity__m`, ..., but `check_if_indexes` tests `hasattr(self, '_m')`
and `check_if_graph` tests `hasattr(self, '_complete_graph')`, so the
guards never pass: every guarded accessor (m, rca, m_cp, diversity,
ubiquity, eci, pci, proximity, density, distance), `create_product_space`
and the graph accessors raise their precondition error even on an instance
on which `calculate_indexes()` (and the graph construction) has completed —
contradicting the claim (and the repository's own tests, which read
`comp.m` after `comp.calculate_indexes()`). -/
theorem C1_guard_never_passes :
    checkIfIndexes initAttrs = false ∧
    checkIfIndexes (calculateIndexesAttrs initAttrs) = false ∧
    guardedIndexAccessor (calculateIndexesAttrs initAttrs) =
      Except.error "First, calculate indexes!" ∧
    checkIfGraph (generateGraphsAttrs (calculateIndexesAttrs initAttrs)) = false ∧
    guardedGraphAccessor (generateGraphsAttrs (calculateIndexesAttrs initAttrs)) =
      Except.error "First, create the Product Space!" :=
  ⟨rfl, rfl, rfl, rfl, rfl⟩

/-- **C2** (counterexample): with the scenario's observations and
`m_cp_thresh = 2`, entity B (row index 1) has an all-zero binarized row,
yet it is still present in `M_cp`'s row index — the reindexing lines
`m_cp[(m_cp != 0).all(axis=0).index]` / `.loc[(m_cp != 0).all(axis=1).index]`
select by the *full* index and remove nothing, so the claim "any entity
whose binarized row is entirely zero is absent from M_cp" is false. -/
theorem C2_no_row_removed_counterexample :
    (getMcpFrame
        (⟨[0, 1, 2], [0, 1, 2], fun c p => rca (buildM (obsStub ℚ)) c p⟩ :
          DFrame (Fin 3) (Fin 3) ℚ) 2).rows = [0, 1, 2] ∧
    (1 : Fin 3) ∈ (getMcpFrame
        (⟨[0, 1, 2], [0, 1, 2], fun c p => rca (buildM (obsStub ℚ)) c p⟩ :
          DFrame (Fin 3) (Fin 3) ℚ) 2).rows ∧
    (∀ j : Fin 3, (getMcpFrame
        (⟨[0, 1, 2], [0, 1, 2], fun c p => rca (buildM (obsStub ℚ)) c p⟩ :
          DFrame (Fin 3) (Fin 3) ℚ) 2).val 1 j = 0) := by
  rw [getMcpFrame_eq]
  refine ⟨rfl, by simp, ?_⟩
  intro j
  show mcpVal 2 (rca (buildM (obsStub ℚ)) 1 j) = 0
  fin_cases j <;>
    · rw [rcaStub_eval (K := ℚ)]
      simp [mcpVal, mask1, mask2, Matrix.vecHead, Matrix.vecTail]
      try norm_num

/-- **C2** (amended): the two reindexing lines of `__get_m_cp` are no-ops:
`M_cp` keeps every row and every column of the thresholded RCA frame
(all-zero or not), and every cell is exactly the two-mask threshold of the
corresponding RCA cell. -/
theorem C2_strip_is_noop {K : Type} [LinearOrderedField K] [DecidableEq K]
    {R C : Type} (df : DFrame R C K) (τ : K) :
    (getMcpFrame df τ).rows = df.rows ∧
    (getMcpFrame df τ).cols = df.cols ∧
    (∀ i j, (getMcpFrame df τ).val i j = mcpVal τ (df.val i j)) := by
  rw [getMcpFrame_eq]
  exact ⟨rfl, rfl, fun i j => rfl⟩

/-- **C4** (counterexample): `complete_graph` (like `maxst` and
`product_space`) returns `self.__complete_graph` itself, not a copy; on an
engine whose internal graph value is `7`, mutating the returned reference
to `9` makes the engine's own subsequent read see `9` — engine state is
corrupted through the returned reference, refuting the claim that all
accessors return independent copies. -/
theorem C4_graph_accessor_aliases :
    (aliasAccessor (⟨[7], 0⟩ : EngRef ℕ)).1 = 0 ∧
    internalValue (⟨[7], 0⟩ : EngRef ℕ) 0 = 7 ∧
    internalValue
      (mutateThrough (aliasAccessor (⟨[7], 0⟩ : EngRef ℕ)).2
        (aliasAccessor (⟨[7], 0⟩ : EngRef ℕ)).1 9) 0 = 9 :=
  ⟨rfl, rfl, rfl⟩

/-- **C4** (amended): the DataFrame accessors, which return
`self.__X.copy()`, hand out a fresh heap cell — mutating it leaves the
engine's internal value unchanged; the three graph accessors return the
internal reference itself, so mutating the returned object overwrites the
engine's value. -/
theorem C4_copy_accessors_safe_graph_accessors_alias {α : Type}
    (e : EngRef α) (d v : α) (h : e.internalRef < e.heap.length) :
    internalValue
        (mutateThrough (copyAccessor e d).2 (copyAccessor e d).1 v) d =
      internalValue e d ∧
    internalValue
        (mutateThrough (aliasAccessor e).2 (aliasAccessor e).1 v) d = v := by
  constructor
  · unfold copyAccessor mutateThrough internalValue
    rw [readRef_writeAt_ne _ _ _ _ _ (Nat.ne_of_gt h)]
    exact readRef_append_left _ _ _ _ h
  · unfold aliasAccessor mutateThrough internalValue
    exact readRef_writeAt_same _ _ _ _ h

/-- Witness for the amended copy/alias claim at a concrete engine state. -/
theorem C4_copy_accessors_witness :
    (⟨[7], 0⟩ : EngRef ℕ).internalRef < (⟨[7], 0⟩ : EngRef ℕ).heap.length ∧
    internalValue
        (mutateThrough (copyAccessor (⟨[7], 0⟩ : EngRef ℕ) 0).2
          (copyAccessor (⟨[7], 0⟩ : EngRef ℕ) 0).1 9) 0 =
      internalValue (⟨[7], 0⟩ : EngRef ℕ) 0 ∧
    internalValue
        (mutateThrough (aliasAccessor (⟨[7], 0⟩ : EngRef ℕ)).2
          (aliasAccessor (⟨[7], 0⟩ : EngRef ℕ)).1 9) 0 = 9 := by
  refine ⟨by decide, ?_, ?_⟩
  · exact (C4_copy_accessors_safe_graph_accessors_alias
      (⟨[7], 0⟩ : EngRef ℕ) 0 9 (by decide)).1
  · exact (C4_copy_accessors_safe_graph_accessors_alias
      (⟨[7], 0⟩ : EngRef ℕ) 0 9 (by decide)).2

/-- **C6** (code_bug): the constructor's documentation says "larger or
equal values of RCA become 1 in M_cp", and the claim says cell `≥ τ → 1`.
But the second masking line `m_cp[m_cp < thresh] = 0` re-tests the cells
the first line just set to `1`: with `m_cp_thresh = 2` on the scenario,
`RCA[A,P3] = 3.5 ≥ 2` yet `M_cp[A,P3] = 0` (the `1` written by the first
mask is `< 2` and is zeroed by the second).  Every cell is still 0 or 1,
so only the `cell = 1 ↔ RCA ≥ τ` part of the claim is broken (for τ > 1). -/
theorem C6_mask_order_bug :
    rca (buildM (obsStub ℚ)) 0 2 = 7 / 2 ∧
    (2 : ℚ) ≤ 7 / 2 ∧
    mcpOf (rca (buildM (obsStub ℚ))) 2 0 2 = 0 ∧
    (∀ c p, mcpOf (rca (buildM (obsStub ℚ))) 2 c p = 0 ∨
      mcpOf (rca (buildM (obsStub ℚ))) 2 c p = 1) := by
  refine ⟨?_, by norm_num, ?_, fun c p => mcpVal_mem _ _⟩
  · rw [rcaStub_eval (K := ℚ)]
    rfl
  · unfold mcpOf
    rw [rcaStub_eval (K := ℚ)]
    simp [mcpVal, mask1, mask2, Matrix.vecHead, Matrix.vecTail]
    norm_num

/-- **C7** (counterexample): when the Pearson correlation is exactly zero
(`k = (1,2,3)`, `ci = (1,0,1)`), `__fix_sign` multiplies by
`np.sign(0) = 0` and returns the zero vector — not the unchanged `ci`
promised by the claim for the "not negative" case. -/
theorem C7_zero_correlation_counterexample :
    pearson Real.sqrt ![(1:ℝ), 2, 3] ![(1:ℝ), 0, 1] = 0 ∧
    ¬ pearson Real.sqrt ![(1:ℝ), 2, 3] ![(1:ℝ), 0, 1] < 0 ∧
    fixSign Real.sqrt ![(1:ℝ), 2, 3] ![(1:ℝ), 0, 1] = ![0, 0, 0] ∧
    (![(1:ℝ), 0, 1] : Fin 3 → ℝ) ≠ ![0, 0, 0] := by
  have hnum : pearsonNum ![(1:ℝ), 2, 3] ![(1:ℝ), 0, 1] = 0 := by
    simp [pearsonNum, meanV, Fin.sum_univ_three, Matrix.vecHead, Matrix.vecTail]
    try ring
  have hp : pearson Real.sqrt ![(1:ℝ), 2, 3] ![(1:ℝ), 0, 1] = 0 := by
    unfold pearson
    rw [hnum, zero_div]
  refine ⟨hp, by rw [hp]; exact lt_irrefl 0, ?_, ?_⟩
  · funext i
    unfold fixSign
    rw [hp]
    have : sgn (0 : ℝ) = 0 := by simp [sgn]
    rw [this, zero_mul]
    fin_cases i <;> simp [Matrix.vecHead, Matrix.vecTail]
  · intro hcontra
    have h0 : (![(1:ℝ), 0, 1] : Fin 3 → ℝ) 0 = (![0, 0, 0] : Fin 3 → ℝ) 0 := by
      rw [hcontra]
    simp [vec3_at0] at h0

/-- **C7** (amended): `__fix_sign` multiplies the index by the *sign* of
the Pearson correlation: flipped when negative, unchanged when positive,
and zeroed when the correlation is exactly zero; `__calc_pci` then always
multiplies the sign-corrected result by `-1`, unconditionally. -/
theorem C7_sign_handling {n nc np : ℕ} (k ci : Fin n → ℝ)
    (mc : Fin nc → Fin np → ℝ) (v : Fin np → ℝ) :
    (pearson Real.sqrt k ci < 0 →
      fixSign Real.sqrt k ci = fun i => -(ci i)) ∧
    (0 < pearson Real.sqrt k ci → fixSign Real.sqrt k ci = ci) ∧
    (pearson Real.sqrt k ci = 0 → fixSign Real.sqrt k ci = fun i => 0) ∧
    (pciFromVec Real.sqrt mc v =
      fun p => -(fixSign Real.sqrt (ubiquity mc) (standardize Real.sqrt v) p)) := by
  refine ⟨fun h => ?_, fun h => ?_, fun h => ?_, ?_⟩
  · funext i
    unfold fixSign
    rw [sgn_of_neg h]
    ring
  · funext i
    unfold fixSign
    rw [sgn_of_pos h, one_mul]
  · funext i
    unfold fixSign
    rw [h]
    have : sgn (0 : ℝ) = 0 := by simp [sgn]
    rw [this, zero_mul]
  · funext p
    unfold pciFromVec
    ring

/-- Witness: at the scenario's diversity vector and standardized reference
eigenvector, the correlation is positive and `__fix_sign` returns its
input unchanged. -/
theorem C7_sign_handling_witness :
    fixSign Real.sqrt ![(2:ℝ), 1, 1]
        ![Real.sqrt 2 / 2, Real.sqrt 2 / 2, -Real.sqrt 2] =
      ![Real.sqrt 2 / 2, Real.sqrt 2 / 2, -Real.sqrt 2] :=
  (C7_sign_handling ![(2:ℝ), 1, 1]
      ![Real.sqrt 2 / 2, Real.sqrt 2 / 2, -Real.sqrt 2]
      (fun (_ : Fin 1) (_ : Fin 1) => (0:ℝ)) (fun _ => 0)).2.1
    pearson_stub_eci_pos

/-- **C8** (confirmed): on every input on which the pipeline completes
(modelled by all ubiquities being nonzero — a zero ubiquity makes the
item-side transition matrix divide by zero, so `np.linalg.eig` raises and
the pipeline aborts), the proximity matrix equals
`(M_cpᵗ·M_cp)[p,q] / max(ubiquity p, ubiquity q)` off the diagonal, has an
all-zero diagonal, is symmetric, and every off-diagonal entry lies in
`[0,1]`. -/
theorem C8_proximity_invariants {K : Type} [LinearOrderedField K]
    {nc np : ℕ} (r : Fin nc → Fin np → K) (τ : K)
    (hub : ∀ p, ubiquity (mcpOf r τ) p ≠ 0) :
    (∀ p q, p ≠ q → proximity (mcpOf r τ) p q =
      phiRaw (mcpOf r τ) p q /
        max (ubiquity (mcpOf r τ) p) (ubiquity (mcpOf r τ) q)) ∧
    (∀ p, proximity (mcpOf r τ) p p = 0) ∧
    (∀ p q, proximity (mcpOf r τ) p q = proximity (mcpOf r τ) q p) ∧
    (∀ p q, p ≠ q → 0 ≤ proximity (mcpOf r τ) p q ∧
      proximity (mcpOf r τ) p q ≤ 1) := by
  have hmc : ∀ c p, mcpOf r τ c p = 0 ∨ mcpOf r τ c p = 1 := fun c p =>
    mcpVal_mem τ (r c p)
  have hubpos : ∀ p, 0 < ubiquity (mcpOf r τ) p := fun p =>
    lt_of_le_of_ne (ubiquity_nonneg _ hmc p) (Ne.symm (hub p))
  refine ⟨?_, ?_, ?_, ?_⟩
  · intro p q hpq
    unfold proximity
    rw [if_neg hpq, max_comm]
  · intro p
    unfold proximity
    rw [if_pos rfl]
  · intro p q
    rcases eq_or_ne p q with rfl | hne
    · rfl
    · unfold proximity
      rw [if_neg hne, if_neg (Ne.symm hne), phiRaw_symm, max_comm]
  · intro p q hpq
    unfold proximity
    rw [if_neg hpq]
    constructor
    · exact div_nonneg (phiRaw_nonneg _ hmc p q)
        (le_trans (hubpos q).le (le_max_left _ _))
    · rw [div_le_one (lt_of_lt_of_le (hubpos q) (le_max_left _ _))]
      exact le_trans (phiRaw_le_ubiquity _ hmc p q) (le_max_left _ _)

/-- Ubiquity evaluation for the small witness input
`rca = [[1,1],[1,0]]`, `τ = 1` (so `M_cp = [[1,1],[1,0]]`). -/
lemma witness2_ubiquity (p : Fin 2) :
    ubiquity (mcpOf (![![(1:ℚ), 1], ![1, 0]]) 1) p = ![2, 1] p := by
  fin_cases p <;>
    · simp [ubiquity, mcpOf, mcpVal, mask1, mask2, Fin.sum_univ_two,
        vec2_at0, vec2_at1, vec2_mk0, vec2_mk1, Matrix.vecHead, Matrix.vecTail]
      try norm_num

/-- Witness for the proximity claim at a concrete input. -/
theorem C8_proximity_invariants_witness :
    (∀ p, ubiquity (mcpOf (![![(1:ℚ), 1], ![1, 0]]) 1) p ≠ 0) ∧
    (0 ≤ proximity (mcpOf (![![(1:ℚ), 1], ![1, 0]]) 1) 0 1 ∧
      proximity (mcpOf (![![(1:ℚ), 1], ![1, 0]]) 1) 0 1 ≤ 1) ∧
    proximity (mcpOf (![![(1:ℚ), 1], ![1, 0]]) 1) 0 1 =
      proximity (mcpOf (![![(1:ℚ), 1], ![1, 0]]) 1) 1 0 ∧
    proximity (mcpOf (![![(1:ℚ), 1], ![1, 0]]) 1) 0 0 = 0 := by
  have hub : ∀ p, ubiquity (mcpOf (![![(1:ℚ), 1], ![1, 0]]) 1) p ≠ 0 := by
    intro p
    rw [witness2_ubiquity]
    fin_cases p <;> simp [vec2_at0, vec2_at1, Matrix.vecHead, Matrix.vecTail]
  have big := C8_proximity_invariants (![![(1:ℚ), 1], ![1, 0]]) 1 hub
  exact ⟨hub, big.2.2.2 0 1 (by decide), big.2.2.1 0 1, big.2.1 0⟩

/-- **C9** (confirmed): distance is `1 - density` elementwise, so density
and distance sum to exactly 1 in every cell; the hypothesis (each item has
nonzero total proximity mass) models "the pipeline completes without the
NaN that `0/0` would produce in the density row". -/
theorem C9_density_distance_sum {K : Type} [LinearOrderedField K]
    {nc np : ℕ} (r : Fin nc → Fin np → K) (τ : K)
    (hmass : ∀ p, (∑ q, proximity (mcpOf r τ) p q) ≠ 0) :
    ∀ c p, distanceOf (mcpOf r τ) c p = 1 - densityOf (mcpOf r τ) c p ∧
      densityOf (mcpOf r τ) c p + distanceOf (mcpOf r τ) c p = 1 := by
  intro c p
  refine ⟨rfl, ?_⟩
  unfold distanceOf
  ring

/-- Proximity evaluation for the small witness input. -/
lemma witness2_proximity (p q : Fin 2) :
    proximity (mcpOf (![![(1:ℚ), 1], ![1, 0]]) 1) p q = ![![0, 1/2], ![1/2, 0]] p q := by
  have hub := witness2_ubiquity
  fin_cases p <;> fin_cases q <;>
    · simp [proximity, phiRaw, hub, mcpOf, mcpVal, mask1, mask2,
        Fin.sum_univ_two, vec2_at0, vec2_at1, vec2_mk0, vec2_mk1,
        Matrix.vecHead, Matrix.vecTail]
      try norm_num

/-- Witness for the density/distance claim at a concrete input. -/
theorem C9_density_distance_sum_witness :
    (∀ p, (∑ q, proximity (mcpOf (![![(1:ℚ), 1], ![1, 0]]) 1) p q) ≠ 0) ∧
    densityOf (mcpOf (![![(1:ℚ), 1], ![1, 0]]) 1) 0 0 +
      distanceOf (mcpOf (![![(1:ℚ), 1], ![1, 0]]) 1) 0 0 = 1 := by
  have hmass : ∀ p, (∑ q, proximity (mcpOf (![![(1:ℚ), 1], ![1, 0]]) 1) p q) ≠ 0 := by
    intro p
    rw [Fin.sum_univ_two, witness2_proximity, witness2_proximity]
    fin_cases p <;>
      · simp [vec2_at0, vec2_at1, vec2_mk0, vec2_mk1, Matrix.vecHead, Matrix.vecTail]
        try norm_num
  exact ⟨hmass,
    (C9_density_distance_sum (![![(1:ℚ), 1], ![1, 0]]) 1 hmass 0 0).2⟩

/-- **C10** (confirmed): for every run of `create_product_space` with
threshold `t` (over the engine's stored proximity matrix), the product
space contains every edge of the spanning tree it starts from, contains
every complete-graph edge whose weight strictly exceeds `t`, and contains
no edge absent from the complete graph (given that
`nx.maximum_spanning_tree` returns a subgraph of its input, modelled as
the hypothesis `hmst`). -/
theorem C10_product_space_edges {K : Type} [LinearOrderedField K]
    {n : ℕ} (prox : Fin n → Fin n → K) (t : K)
    (mst : Finset (Fin n × Fin n))
    (hmst : ∀ e ∈ mst, e ∈ completeGraphEdgeList prox) :
    (∀ e ∈ mst, e ∈ productSpaceEdges prox t mst) ∧
    (∀ e ∈ completeGraphEdgeList prox, t < prox e.1 e.2 →
      e ∈ productSpaceEdges prox t mst) ∧
    (∀ e ∈ productSpaceEdges prox t mst, e ∈ completeGraphEdgeList prox) := by
  refine ⟨?_, ?_, ?_⟩
  · intro e he
    exact (productSpaceLoop_mem prox t mst _ e).mpr (Or.inl he)
  · intro e he hw
    exact (productSpaceLoop_mem prox t mst _ e).mpr (Or.inr ⟨he, hw⟩)
  · intro e he
    rcases (productSpaceLoop_mem prox t mst _ e).mp he with h | ⟨h, _⟩
    · exact hmst e h
    · exact h

/-- Witness for the product-space claim: items `{0,1}` with proximity
`1` between them, threshold `2`, spanning tree `{(0,1)}`. -/
theorem C10_product_space_edges_witness :
    (∀ e ∈ ({((0 : Fin 2), (1 : Fin 2))} : Finset (Fin 2 × Fin 2)),
      e ∈ completeGraphEdgeList (![![(0:ℚ), 1], ![1, 0]])) ∧
    (∀ e ∈ ({((0 : Fin 2), (1 : Fin 2))} : Finset (Fin 2 × Fin 2)),
      e ∈ productSpaceEdges (![![(0:ℚ), 1], ![1, 0]]) 2
        {((0 : Fin 2), (1 : Fin 2))}) ∧
    (∀ e ∈ productSpaceEdges (![![(0:ℚ), 1], ![1, 0]]) 2
        {((0 : Fin 2), (1 : Fin 2))},
      e ∈ completeGraphEdgeList (![![(0:ℚ), 1], ![1, 0]])) := by
  have hmst : ∀ e ∈ ({((0 : Fin 2), (1 : Fin 2))} : Finset (Fin 2 × Fin 2)),
      e ∈ completeGraphEdgeList (![![(0:ℚ), 1], ![1, 0]]) := by decide
  have big := C10_product_space_edges (![![(0:ℚ), 1], ![1, 0]]) 2
    {((0 : Fin 2), (1 : Fin 2))} hmst
  exact ⟨hmst, big.1, big.2.2⟩

/-- **C5** (counterexample): the code standardizes with numpy's default
*population* standard deviation (`ddof=0`), not the sample standard
deviation.  For the concrete scenario the pipeline's ECI is
`(√2/2, √2/2, -√2)` (witnessed by the admissible eigenvector `(1,1,0)`);
its sample variance is `3/2`, so its sample standard deviation
`√(3/2) ≈ 1.2247` differs from 1 by far more than floating tolerance. -/
theorem C5_sample_std_not_one :
    eciFromVec Real.sqrt (mcpOf (rca (buildM (obsStub ℝ))) 1) ![(1:ℝ), 1, 0] =
      ![Real.sqrt 2 / 2, Real.sqrt 2 / 2, -Real.sqrt 2] ∧
    sampleVarV
      (eciFromVec Real.sqrt (mcpOf (rca (buildM (obsStub ℝ))) 1) ![(1:ℝ), 1, 0]) =
      3 / 2 ∧
    1 / 10 < |Real.sqrt (sampleVarV
      (eciFromVec Real.sqrt (mcpOf (rca (buildM (obsStub ℝ))) 1) ![(1:ℝ), 1, 0])) - 1| := by
  have hs : Real.sqrt 2 * Real.sqrt 2 = 2 :=
    Real.mul_self_sqrt (by norm_num : (0:ℝ) ≤ 2)
  have h1 := eciStub_val
  have hmw : meanV ![Real.sqrt 2 / 2, Real.sqrt 2 / 2, -Real.sqrt 2] = 0 := by
    simp [meanV, Fin.sum_univ_three, vec3_at0, vec3_at1, vec3_at2,
      Matrix.vecHead, Matrix.vecTail]
    try ring
  have hsv : sampleVarV ![Real.sqrt 2 / 2, Real.sqrt 2 / 2, -Real.sqrt 2] =
      3 / 2 := by
    unfold sampleVarV
    rw [hmw]
    have hsum : (∑ i, ((![Real.sqrt 2 / 2, Real.sqrt 2 / 2, -Real.sqrt 2]) i - 0) ^ 2) =
        3 := by
      rw [Fin.sum_univ_three]
      simp only [vec3_at0, vec3_at1, vec3_at2, sub_zero]
      nlinarith [hs]
    rw [hsum]
    norm_num
  refine ⟨h1, by rw [h1, hsv], ?_⟩
  rw [h1, hsv]
  have hnn := Real.sqrt_nonneg (3 / 2 : ℝ)
  have hsq : Real.sqrt (3 / 2 : ℝ) * Real.sqrt (3 / 2 : ℝ) = 3 / 2 :=
    Real.mul_self_sqrt (by norm_num)
  have hgt : (11 / 10 : ℝ) < Real.sqrt (3 / 2) := by nlinarith [hsq, hnn]
  rw [abs_of_pos (by linarith)]
  linarith

/-- **C5** (amended): the ECI and PCI vectors have mean zero and unit
*population* standard deviation (denominator `n`, numpy's `std()` default)
— not unit sample standard deviation — whenever the chosen eigenvector is
non-degenerate and its correlation with diversity/ubiquity is nonzero
(otherwise the code divides by zero or multiplies by `sign(0) = 0`). -/
theorem C5_population_moments {nc np : ℕ} (mc : Fin nc → Fin np → ℝ)
    (v : Fin nc → ℝ) (w : Fin np → ℝ)
    (hnc : (nc : ℝ) ≠ 0) (hnp : (np : ℝ) ≠ 0)
    (hv : popVarV v ≠ 0) (hw : popVarV w ≠ 0)
    (hcv : pearson Real.sqrt (diversity mc) (standardize Real.sqrt v) ≠ 0)
    (hcw : pearson Real.sqrt (ubiquity mc) (standardize Real.sqrt w) ≠ 0) :
    (meanV (eciFromVec Real.sqrt mc v) = 0 ∧
      popVarV (eciFromVec Real.sqrt mc v) = 1) ∧
    (meanV (pciFromVec Real.sqrt mc w) = 0 ∧
      popVarV (pciFromVec Real.sqrt mc w) = 1) := by
  have hpci : pciFromVec Real.sqrt mc w =
      fun p => (-1) * fixSign Real.sqrt (ubiquity mc) (standardize Real.sqrt w) p := by
    funext p
    unfold pciFromVec
    ring
  refine ⟨⟨?_, ?_⟩, ⟨?_, ?_⟩⟩
  · exact meanV_fixSign_standardize (diversity mc) v hnc
  · exact popVarV_fixSign_standardize (diversity mc) v hnc hv hcv
  · rw [hpci, meanV_smul, meanV_fixSign_standardize (ubiquity mc) w hnp,
      mul_zero]
  · rw [hpci, popVarV_smul,
      popVarV_fixSign_standardize (ubiquity mc) w hnp hw hcw]
    norm_num

/-- Witness for the population-moment claim at the concrete scenario with
the reference eigenvectors. -/
theorem C5_population_moments_witness :
    popVarV ![(1:ℝ), 1, 0] ≠ 0 ∧ popVarV ![(1:ℝ), 0, 0] ≠ 0 ∧
    (meanV (eciFromVec Real.sqrt (mcpOf (rca (buildM (obsStub ℝ))) 1) ![(1:ℝ), 1, 0]) = 0 ∧
      popVarV (eciFromVec Real.sqrt (mcpOf (rca (buildM (obsStub ℝ))) 1) ![(1:ℝ), 1, 0]) = 1) ∧
    (meanV (pciFromVec Real.sqrt (mcpOf (rca (buildM (obsStub ℝ))) 1) ![(1:ℝ), 0, 0]) = 0 ∧
      popVarV (pciFromVec Real.sqrt (mcpOf (rca (buildM (obsStub ℝ))) 1) ![(1:ℝ), 0, 0]) = 1) := by
  have hv : popVarV ![(1:ℝ), 1, 0] ≠ 0 := by rw [popVar_stub_eci]; norm_num
  have hw : popVarV ![(1:ℝ), 0, 0] ≠ 0 := by rw [popVar_stub_pci]; norm_num
  have hdiv : diversity (mcpOf (rca (buildM (obsStub ℝ))) 1) = ![2, 1, 1] :=
    funext diversityStub_eval
  have hub : ubiquity (mcpOf (rca (buildM (obsStub ℝ))) 1) = ![1, 2, 1] :=
    funext ubiquityStub_eval
  have hcv : pearson Real.sqrt (diversity (mcpOf (rca (buildM (obsStub ℝ))) 1))
      (standardize Real.sqrt ![(1:ℝ), 1, 0]) ≠ 0 := by
    rw [hdiv, std_stub_eci]
    exact ne_of_gt pearson_stub_eci_pos
  have hcw : pearson Real.sqrt (ubiquity (mcpOf (rca (buildM (obsStub ℝ))) 1))
      (standardize Real.sqrt ![(1:ℝ), 0, 0]) ≠ 0 := by
    rw [hub, std_stub_pci]
    exact ne_of_lt pearson_stub_pci_neg
  have big := C5_population_moments (mcpOf (rca (buildM (obsStub ℝ))) 1)
    ![(1:ℝ), 1, 0] ![(1:ℝ), 0, 0] (by norm_num) (by norm_num) hv hw hcv hcw
  exact ⟨hv, hw, big.1, big.2⟩

/-- **C3** (confirmed): for the concrete 3×3 scenario with threshold 1.0,
`M` is exactly `[[10,20,30],[40,50,0],[60,0,0]]`; `RCA` agrees with the
stated 4-decimal rounding in every cell; both transition matrices have
characteristic polynomial `(x-1)²(x-1/4)` — so the sorted eigenvalue list
is `[1/4, 1, 1]` and `argsort()[-2]` (second-largest) selects eigenvalue 1
— and every admissible eigenvector of eigenvalue 1 (non-degenerate, i.e.
producing a nonzero standard deviation) yields
`ECI ≈ (0.707, 0.707, -1.414)` for `(A,B,C)` and
`PCI ≈ (1.414, -0.707, -0.707)` for `(P1,P2,P3)` to within the stated
3-decimal rounding. -/
theorem C3_concrete_scenario :
    (∀ c p, buildM (obsStub ℝ) c p =
      ![![10, 20, 30], ![40, 50, 0], ![60, 0, 0]] c p) ∧
    (∀ c p, |rca (buildM (obsStub ℝ)) c p -
      ![![0.3182, 1, 3.5], ![0.8485, 1.6667, 0], ![1.9091, 0, 0]] c p| ≤
        1 / 20000) ∧
    (∀ x : ℝ, Matrix.det (x • (1 : Matrix (Fin 3) (Fin 3) ℝ) -
        Matrix.of (mTildaCC (mcpOf (rca (buildM (obsStub ℝ))) 1))) =
      (x - 1) ^ 2 * (x - 1 / 4)) ∧
    (∀ x : ℝ, Matrix.det (x • (1 : Matrix (Fin 3) (Fin 3) ℝ) -
        Matrix.of (mTildaPP (mcpOf (rca (buildM (obsStub ℝ))) 1))) =
      (x - 1) ^ 2 * (x - 1 / 4)) ∧
    (∀ v : Fin 3 → ℝ,
      (∀ i, (∑ j, mTildaCC (mcpOf (rca (buildM (obsStub ℝ))) 1) i j * v j) = v i) →
      v 0 ≠ v 2 →
      ∀ i, |eciFromVec Real.sqrt (mcpOf (rca (buildM (obsStub ℝ))) 1) v i -
        ![0.707, 0.707, -1.414] i| ≤ 1 / 2000) ∧
    (∀ v : Fin 3 → ℝ,
      (∀ p, (∑ q, mTildaPP (mcpOf (rca (buildM (obsStub ℝ))) 1) p q * v q) = v p) →
      v 0 ≠ v 1 →
      ∀ p, |pciFromVec Real.sqrt (mcpOf (rca (buildM (obsStub ℝ))) 1) v p -
        ![1.414, -0.707, -0.707] p| ≤ 1 / 2000) := by
  have hs : Real.sqrt 2 * Real.sqrt 2 = 2 :=
    Real.mul_self_sqrt (by norm_num : (0:ℝ) ≤ 2)
  have hnn := Real.sqrt_nonneg 2
  have hlo : (1.414 : ℝ) ≤ Real.sqrt 2 := by
    nlinarith [hs, hnn, sq_nonneg (Real.sqrt 2 - 1.414)]
  have hhi : Real.sqrt 2 ≤ (1.4143 : ℝ) := by
    nlinarith [hs, hnn, sq_nonneg (Real.sqrt 2 + 1.4143)]
  refine ⟨mStub_eval, ?_, charpoly_mTildaCC_stub, charpoly_mTildaPP_stub, ?_, ?_⟩
  · intro c p
    rw [rcaStub_eval (K := ℝ), abs_le]
    fin_cases c <;> fin_cases p <;>
      · simp only [vec3_at0, vec3_at1, vec3_at2, vec3_mk0, vec3_mk1, vec3_mk2]
        constructor <;> norm_num
  · intro v hv hne i
    rw [eciStub_of_eigvec v hv hne, abs_le]
    fin_cases i <;>
      · simp only [vec3_at0, vec3_at1, vec3_at2, vec3_mk0, vec3_mk1, vec3_mk2]
        constructor <;> nlinarith [hlo, hhi]
  · intro v hv hne p
    rw [pciStub_of_eigvec v hv hne, abs_le]
    fin_cases p <;>
      · simp only [vec3_at0, vec3_at1, vec3_at2, vec3_mk0, vec3_mk1, vec3_mk2]
        constructor <;> nlinarith [hlo, hhi]

/-- Witness for the concrete scenario: the reference eigenvectors
`(1,1,0)` (entity side) and `(1,0,0)` (item side) satisfy the
eigen-equations for eigenvalue 1, are non-degenerate, and produce the
claimed rounded ECI/PCI values. -/
theorem C3_concrete_scenario_witness :
    (∀ i, (∑ j, mTildaCC (mcpOf (rca (buildM (obsStub ℝ))) 1) i j *
      (![(1:ℝ), 1, 0]) j) = (![(1:ℝ), 1, 0]) i) ∧
    (∀ p, (∑ q, mTildaPP (mcpOf (rca (buildM (obsStub ℝ))) 1) p q *
      (![(1:ℝ), 0, 0]) q) = (![(1:ℝ), 0, 0]) p) ∧
    (![(1:ℝ), 1, 0]) 0 ≠ (![(1:ℝ), 1, 0]) 2 ∧
    (![(1:ℝ), 0, 0]) 0 ≠ (![(1:ℝ), 0, 0]) 1 ∧
    (∀ i, |eciFromVec Real.sqrt (mcpOf (rca (buildM (obsStub ℝ))) 1)
        ![(1:ℝ), 1, 0] i - ![0.707, 0.707, -1.414] i| ≤ 1 / 2000) ∧
    (∀ p, |pciFromVec Real.sqrt (mcpOf (rca (buildM (obsStub ℝ))) 1)
        ![(1:ℝ), 0, 0] p - ![1.414, -0.707, -0.707] p| ≤ 1 / 2000) := by
  have hvE : ∀ i, (∑ j, mTildaCC (mcpOf (rca (buildM (obsStub ℝ))) 1) i j *
      (![(1:ℝ), 1, 0]) j) = (![(1:ℝ), 1, 0]) i := by
    intro i
    rw [Fin.sum_univ_three]
    simp only [mTildaCCStub_eval (K := ℝ)]
    fin_cases i <;>
      · simp only [vec3_at0, vec3_at1, vec3_at2, vec3_mk0, vec3_mk1, vec3_mk2]
        norm_num
  have hvP : ∀ p, (∑ q, mTildaPP (mcpOf (rca (buildM (obsStub ℝ))) 1) p q *
      (![(1:ℝ), 0, 0]) q) = (![(1:ℝ), 0, 0]) p := by
    intro p
    rw [Fin.sum_univ_three]
    simp only [mTildaPPStub_eval (K := ℝ)]
    fin_cases p <;>
      · simp only [vec3_at0, vec3_at1, vec3_at2, vec3_mk0, vec3_mk1, vec3_mk2]
        norm_num
  have hneE : (![(1:ℝ), 1, 0]) 0 ≠ (![(1:ℝ), 1, 0]) 2 := by
    simp only [vec3_at0, vec3_at2]
    norm_num
  have hneP : (![(1:ℝ), 0, 0]) 0 ≠ (![(1:ℝ), 0, 0]) 1 := by
    simp only [vec3_at0, vec3_at1]
    norm_num
  exact ⟨hvE, hvP, hneE, hneP,
    C3_concrete_scenario.2.2.2.2.1 ![(1:ℝ), 1, 0] hvE hneE,
    C3_concrete_scenario.2.2.2.2.2 ![(1:ℝ), 0, 0] hvP hneP⟩
